import Mathlib

/-!
Verification of the swhid-rs repository (SWHID v1.2 identifier computation)
against its natural-language specification.

Shallow embedding conventions:
- Rust byte strings (`&[u8]`, `Box<[u8]>`, `Vec<u8>`, the UTF-8 bytes of
  `&str`) are modelled as `List Nat`, one `Nat` per byte.
- Rust `&str` operations (`split`, `split_once`, `len`, byte tests) act on
  UTF-8 bytes, so the byte-list model is exact: the separators used by the
  code (`:` `;` `=` `-`) are ASCII and never occur inside a multi-byte
  UTF-8 sequence.
- Fallible Rust functions returning `Result<T, E>` become
  `Except E T`; `Option` stays `Option`.
- Machine integers: `u64`/`usize` become `Nat` (with explicit range checks
  where the code checks ranges), `i64` becomes `Int`.
-/

namespace Swh

/-- UTF-8 bytes of an ASCII string literal (all literals used here are
ASCII, where the code point equals the byte). -/
def ascii (s : String) : List Nat :=
  s.toList.map Char.toNat

instance {ε α : Type} [DecidableEq ε] [DecidableEq α] :
    DecidableEq (Except ε α) := fun a b =>
  match a, b with
  | .error e1, .error e2 =>
    if h : e1 = e2 then .isTrue (by rw [h]) else .isFalse (by simp [h])
  | .error _, .ok _ => .isFalse (by simp)
  | .ok _, .error _ => .isFalse (by simp)
  | .ok v1, .ok v2 =>
    if h : v1 = v2 then .isTrue (by rw [h]) else .isFalse (by simp [h])

/-- Model of Rust `str::split(c)` on bytes: splits at every occurrence of
`sep`, always returning at least one (possibly empty) field. -/
def splitOnByte (sep : Nat) : List Nat → List (List Nat)
  | [] => [[]]
  | b :: rest =>
    if b = sep then
      [] :: splitOnByte sep rest
    else
      match splitOnByte sep rest with
      | [] => [[b]]
      | f :: fs => (b :: f) :: fs

/-- Model of Rust `str::split_once(c)` on bytes: splits at the first
occurrence of `sep`, or returns `none` when `sep` does not occur. -/
def splitOnceByte (sep : Nat) : List Nat → Option (List Nat × List Nat)
  | [] => none
  | b :: rest =>
    if b = sep then
      some ([], rest)
    else
      match splitOnceByte sep rest with
      | none => none
      | some (l, r) => some (b :: l, r)

theorem splitOnByte_cons (sep b : Nat) (rest : List Nat) :
    splitOnByte sep (b :: rest) =
      if b = sep then [] :: splitOnByte sep rest
      else match splitOnByte sep rest with
        | [] => [[b]]
        | f :: fs => (b :: f) :: fs := rfl

theorem splitOnceByte_cons (sep b : Nat) (rest : List Nat) :
    splitOnceByte sep (b :: rest) =
      if b = sep then some ([], rest)
      else match splitOnceByte sep rest with
        | none => none
        | some (l, r) => some (b :: l, r) := rfl

theorem splitOnByte_ne_nil (sep : Nat) (l : List Nat) : splitOnByte sep l ≠ [] := by
  cases l with
  | nil => simp [splitOnByte]
  | cons b rest =>
    simp only [splitOnByte]
    split
    · simp
    · split <;> simp_all

theorem splitOnByte_of_not_mem (sep : Nat) (l : List Nat) (h : sep ∉ l) :
    splitOnByte sep l = [l] := by
  induction l with
  | nil => rfl
  | cons b rest ih =>
    simp only [List.mem_cons, not_or] at h
    simp only [splitOnByte, if_neg (fun hb : _ = sep => h.1 hb.symm), ih h.2]

theorem splitOnByte_append_sep (sep : Nat) (l r : List Nat) (h : sep ∉ l) :
    splitOnByte sep (l ++ sep :: r) = l :: splitOnByte sep r := by
  induction l with
  | nil => simp [splitOnByte]
  | cons b rest ih =>
    simp only [List.mem_cons, not_or] at h
    rw [List.cons_append, splitOnByte_cons, if_neg (fun hb : _ = sep => h.1 hb.symm),
      ih h.2]

theorem splitOnceByte_of_not_mem (sep : Nat) (l : List Nat) (h : sep ∉ l) :
    splitOnceByte sep l = none := by
  induction l with
  | nil => rfl
  | cons b rest ih =>
    simp only [List.mem_cons, not_or] at h
    simp only [splitOnceByte, if_neg (fun hb : _ = sep => h.1 hb.symm), ih h.2]

theorem splitOnceByte_append_sep (sep : Nat) (l r : List Nat) (h : sep ∉ l) :
    splitOnceByte sep (l ++ sep :: r) = some (l, r) := by
  induction l with
  | nil => simp [splitOnceByte]
  | cons b rest ih =>
    simp only [List.mem_cons, not_or] at h
    rw [List.cons_append, splitOnceByte_cons, if_neg (fun hb : _ = sep => h.1 hb.symm),
      ih h.2]

/-- Lowercase hex digit for a value below 16, as in the `hex` crate
(`0123456789abcdef`). -/
def hexDigit (n : Nat) : Nat :=
  if n < 10 then 48 + n else 87 + n

/-- Hex encoding of a byte string (two lowercase digits per byte), as in
`hex::encode`. -/
def hexEncode (l : List Nat) : List Nat :=
  l.flatMap fun b => [hexDigit (b / 16), hexDigit (b % 16)]

/-- Value of one hex digit byte (only called on valid digits). -/
def hexDigitVal (b : Nat) : Nat :=
  if 48 ≤ b ∧ b ≤ 57 then b - 48
  else if 97 ≤ b ∧ b ≤ 102 then b - 87
  else if 65 ≤ b ∧ b ≤ 70 then b - 55
  else 0

/-- Hex decoding of an even-length digest string into bytes, as in
`hex::decode_to_slice` (which cannot fail once the characters have been
validated). -/
def hexDecode : List Nat → List Nat
  | hi :: lo :: rest => (hexDigitVal hi * 16 + hexDigitVal lo) :: hexDecode rest
  | _ => []

/-- Test for a lowercase hex byte, exactly the byte set accepted by the
digest validation in `Swhid::from_str`. -/
def isLowerHexByte (b : Nat) : Bool :=
  (48 ≤ b && b ≤ 57) || (97 ≤ b && b ≤ 102)

theorem hexDigit_lower (n : Nat) (h : n < 16) : isLowerHexByte (hexDigit n) = true := by
  interval_cases n <;> decide

theorem hexEncode_cons (b : Nat) (rest : List Nat) :
    hexEncode (b :: rest) = hexDigit (b / 16) :: hexDigit (b % 16) :: hexEncode rest := rfl

theorem hexDecode_hexEncode (l : List Nat) (h : ∀ b ∈ l, b < 256) :
    hexDecode (hexEncode l) = l := by
  induction l with
  | nil => rfl
  | cons b rest ih =>
    have hb : b < 256 := h b (by simp)
    rw [hexEncode_cons, hexDecode, ih (fun x hx => h x (by simp [hx]))]
    congr 1
    have h1 : b / 16 < 16 := by omega
    have h2 : b % 16 < 16 := by omega
    have e1 : hexDigitVal (hexDigit (b / 16)) = b / 16 := by
      unfold hexDigit hexDigitVal
      repeat' split
      all_goals omega
    have e2 : hexDigitVal (hexDigit (b % 16)) = b % 16 := by
      unfold hexDigit hexDigitVal
      repeat' split
      all_goals omega
    rw [e1, e2]
    omega

theorem hexEncode_length (l : List Nat) : (hexEncode l).length = 2 * l.length := by
  induction l with
  | nil => rfl
  | cons b rest ih => simp [hexEncode, List.flatMap_cons] at ih ⊢; omega

theorem hexEncode_mem_lower (l : List Nat) (hl : ∀ b ∈ l, b < 256) :
    ∀ b ∈ hexEncode l, isLowerHexByte b = true := by
  induction l with
  | nil => simp [hexEncode]
  | cons x rest ih =>
    intro b hb
    have hx : x < 256 := hl x (by simp)
    simp only [hexEncode_cons, List.mem_cons] at hb
    rcases hb with rfl | rfl | h
    · exact hexDigit_lower _ (by omega)
    · exact hexDigit_lower _ (by omega)
    · exact ih (fun y hy => hl y (by simp [hy])) b h

theorem isLowerHexByte_range {b : Nat} (h : isLowerHexByte b = true) :
    (48 ≤ b ∧ b ≤ 57) ∨ (97 ≤ b ∧ b ≤ 102) := by
  simp only [isLowerHexByte, Bool.or_eq_true, Bool.and_eq_true, decide_eq_true_eq] at h
  exact h

/-- Fuel-indexed helper for decimal printing (structural recursion keeps
all definitions kernel-computable). -/
def toDecimalAux : Nat → Nat → List Nat
  | 0, _ => []
  | fuel + 1, n =>
    if n < 10 then [48 + n]
    else toDecimalAux fuel (n / 10) ++ [48 + n % 10]

/-- Decimal digits of a natural number, most significant first, as
produced by Rust integer `to_string` / `Display`. -/
def toDecimal (n : Nat) : List Nat :=
  toDecimalAux (n + 1) n

theorem toDecimalAux_fuel (f1 : Nat) : ∀ f2 n, n < f1 → n < f2 →
    toDecimalAux f1 n = toDecimalAux f2 n := by
  induction f1 using Nat.strong_induction_on with
  | _ f1 ih =>
    intro f2 n h1 h2
    match f1, f2 with
    | fa + 1, fb + 1 =>
      simp only [toDecimalAux]
      split
      · rfl
      · rw [ih fa (by omega) fb (n / 10) (by omega) (by omega)]

theorem toDecimal_step (n : Nat) :
    toDecimal n = if n < 10 then [48 + n] else toDecimal (n / 10) ++ [48 + n % 10] := by
  rw [toDecimal, toDecimalAux]
  split
  · rfl
  · rw [toDecimal, toDecimalAux_fuel n (n / 10 + 1) (n / 10) (by omega) (by omega)]

/-- Decimal rendering of a signed integer, as produced by `i64::to_string`. -/
def intToDecimal (i : Int) : List Nat :=
  if i < 0 then 45 :: toDecimal (-i).toNat else toDecimal i.toNat

theorem toDecimal_mem_digit (n : Nat) : ∀ b ∈ toDecimal n, 48 ≤ b ∧ b ≤ 57 := by
  induction n using Nat.strong_induction_on with
  | _ n ih =>
    intro b hb
    rw [toDecimal_step] at hb
    split at hb
    · simp only [List.mem_singleton] at hb; omega
    · simp only [List.mem_append, List.mem_singleton] at hb
      rcases hb with h | h
      · exact ih (n / 10) (Nat.div_lt_self (by omega) (by omega)) b h
      · omega

theorem toDecimal_ne_nil (n : Nat) : toDecimal n ≠ [] := by
  rw [toDecimal_step]
  split <;> simp

/-- Numeric value of a list of decimal digit bytes (the accumulator loop
inside integer parsing). -/
def decValue (l : List Nat) : Nat :=
  l.foldl (fun acc b => acc * 10 + (b - 48)) 0

theorem decValue_append (l : List Nat) (b : Nat) :
    decValue (l ++ [b]) = decValue l * 10 + (b - 48) := by
  simp [decValue, List.foldl_append]

theorem decValue_toDecimal (n : Nat) : decValue (toDecimal n) = n := by
  induction n using Nat.strong_induction_on with
  | _ n ih =>
    rw [toDecimal_step]
    split
    · simp only [decValue, List.foldl_cons, List.foldl_nil]
      omega
    · rw [decValue_append, ih (n / 10) (Nat.div_lt_self (by omega) (by omega))]
      omega

end Swh

namespace Swh

/-- Error type of the crate (`error.rs`, `SwhidError`); payload strings are
carried as byte lists. -/
inductive SwhidError
  | invalidFormat (s : List Nat)
  | invalidScheme (s : List Nat)
  | invalidVersion (s : List Nat)
  | invalidObjectType (s : List Nat)
  | invalidDigest (s : List Nat)
  | invalidQualifierKey (s : List Nat)
  | invalidQualifierValue (key value : List Nat)
  | ioError (s : List Nat)
deriving DecidableEq, Repr

/-- Known SWH object kinds (`core.rs`, `ObjectType`). -/
inductive ObjectType
  | content
  | directory
  | revision
  | release
  | snapshot
deriving DecidableEq, Repr

/-- The fixed three-letter tag of each object kind (`ObjectType::as_tag`). -/
def ObjectType.as_tag : ObjectType → List Nat
  | .content => ascii "cnt"
  | .directory => ascii "dir"
  | .revision => ascii "rev"
  | .release => ascii "rel"
  | .snapshot => ascii "snp"

/-- Tag lookup (`ObjectType::from_tag`): only the five exact lowercase tags
are accepted. -/
def ObjectType.from_tag (tag : List Nat) : Except SwhidError ObjectType :=
  if tag = ascii "cnt" then .ok .content
  else if tag = ascii "dir" then .ok .directory
  else if tag = ascii "rev" then .ok .revision
  else if tag = ascii "rel" then .ok .release
  else if tag = ascii "snp" then .ok .snapshot
  else .error (.invalidObjectType tag)

/-- A core SWHID (`core.rs`, `Swhid`): object type plus the 20-byte digest
(Rust `[u8; 20]`, modelled as a byte list; validity hypotheses carry the
length and byte bounds where needed). -/
structure Swhid where
  objectType : ObjectType
  digest : List Nat
deriving DecidableEq, Repr

/-- Display of a core SWHID: `swh:1:<tag>:<lowercase hex digest>`
(`impl Display for Swhid`, with `VERSION = "1"`). -/
def Swhid.toString (v : Swhid) : List Nat :=
  ascii "swh:" ++ ascii "1" ++ ascii ":" ++ v.objectType.as_tag ++ ascii ":"
    ++ hexEncode v.digest

/-- Body of `Swhid::from_str` once the input has been split on `:`.
The sequential structure mirrors the iterator `next()` calls of the Rust
code, including the order of the checks: scheme, version, tag, presence of
a digest field, absence of a fifth field, then digest validation. -/
def fromParts (s : List Nat) : List (List Nat) → Except SwhidError Swhid
  | [] => .error (.invalidFormat s)
  | scheme :: parts1 =>
    if scheme = ascii "swh" then
      match parts1 with
      | [] => .error (.invalidFormat s)
      | ver :: parts2 =>
        if ver = ascii "1" then
          match parts2 with
          | [] => .error (.invalidFormat s)
          | tag :: parts3 =>
            match ObjectType.from_tag tag with
            | .error e => .error e
            | .ok ot =>
              match parts3 with
              | [] => .error (.invalidFormat s)
              | digestHex :: parts4 =>
                match parts4 with
                | _ :: _ => .error (.invalidFormat s)
                | [] =>
                  if digestHex.length = 40 ∧ digestHex.all isLowerHexByte then
                    .ok ⟨ot, hexDecode digestHex⟩
                  else .error (.invalidDigest digestHex)
        else .error (.invalidVersion ver)
    else .error (.invalidScheme scheme)

/-- Parsing of a core SWHID string (`impl FromStr for Swhid`). -/
def Swhid.from_str (s : List Nat) : Except SwhidError Swhid :=
  fromParts s (splitOnByte 58 s)

theorem from_tag_as_tag (ot : ObjectType) :
    ObjectType.from_tag ot.as_tag = .ok ot := by
  cases ot <;> rfl

theorem as_tag_no_colon (ot : ObjectType) : (58 : Nat) ∉ ot.as_tag := by
  cases ot <;> decide

theorem hexEncode_no_colon (l : List Nat) (hl : ∀ b ∈ l, b < 256) :
    (58 : Nat) ∉ hexEncode l := by
  intro hmem
  have := hexEncode_mem_lower l hl 58 hmem
  simp [isLowerHexByte] at this

theorem split_toString (v : Swhid) (hb : ∀ b ∈ v.digest, b < 256) :
    splitOnByte 58 (Swhid.toString v) =
      [ascii "swh", ascii "1", v.objectType.as_tag, hexEncode v.digest] := by
  have e : Swhid.toString v =
      ascii "swh" ++ 58 :: (ascii "1" ++ 58 :: (v.objectType.as_tag
        ++ 58 :: hexEncode v.digest)) := by
    simp [Swhid.toString, ascii]
  rw [e, splitOnByte_append_sep _ _ _ (by decide),
    splitOnByte_append_sep _ _ _ (by decide),
    splitOnByte_append_sep _ _ _ (as_tag_no_colon v.objectType),
    splitOnByte_of_not_mem _ _ (hexEncode_no_colon v.digest hb)]

/-- Round trip on the formatted form of a core identifier: parsing the
display of a `Swhid` value recovers the value. -/
theorem from_str_toString (v : Swhid) (hlen : v.digest.length = 20)
    (hb : ∀ b ∈ v.digest, b < 256) :
    Swhid.from_str (Swhid.toString v) = .ok v := by
  have h40 : (hexEncode v.digest).length = 40 := by rw [hexEncode_length, hlen]
  have hall : (hexEncode v.digest).all isLowerHexByte = true := by
    rw [List.all_eq_true]
    exact fun x hx => hexEncode_mem_lower v.digest hb x hx
  rw [Swhid.from_str, split_toString v hb]
  simp [fromParts, from_tag_as_tag, h40, hall, hexDecode_hexEncode v.digest hb]


theorem from_tag_ok_iff (t : List Nat) :
    (∃ ot, ObjectType.from_tag t = .ok ot) ↔
      t ∈ [ascii "cnt", ascii "dir", ascii "rev", ascii "rel", ascii "snp"] := by
  unfold ObjectType.from_tag
  repeat' split
  all_goals simp_all

theorem fromParts_ok_shape (s : List Nat) (parts : List (List Nat)) :
    (∃ v, fromParts s parts = .ok v) ↔
      ∃ tag dh, parts = [ascii "swh", ascii "1", tag, dh] ∧
        (∃ ot, ObjectType.from_tag tag = .ok ot) ∧
        dh.length = 40 ∧ dh.all isLowerHexByte = true := by
  constructor
  · rintro ⟨v, hv⟩
    rcases parts with _ | ⟨scheme, _ | ⟨ver, _ | ⟨tag, _ | ⟨dh, _ | ⟨x, rest⟩⟩⟩⟩⟩ <;>
      simp only [fromParts] at hv
    · simp at hv
    · split_ifs at hv
    · split_ifs at hv
    · split_ifs at hv with h1 h2
      rcases hft : ObjectType.from_tag tag with e | ot <;> rw [hft] at hv
      · simp at hv
      · have hv2 : Except.error (SwhidError.invalidFormat s) = Except.ok v := hv
        simp at hv2
    · split_ifs at hv with h1 h2 h3
      · rcases hft : ObjectType.from_tag tag with e | ot <;> rw [hft] at hv
        · simp at hv
        · exact ⟨tag, dh, by rw [h1, h2], ⟨ot, hft⟩, h3.1, h3.2⟩
      · rcases hft : ObjectType.from_tag tag with e | ot <;> rw [hft] at hv <;>
          simp at hv
    · split_ifs at hv with h1 h2
      rcases hft : ObjectType.from_tag tag with e | ot <;> rw [hft] at hv
      · simp at hv
      · have hv2 : Except.error (SwhidError.invalidFormat s) = Except.ok v := hv
        simp at hv2
  · rintro ⟨tag, dh, hparts, ⟨ot, hft⟩, h40, hall⟩
    subst hparts
    refine ⟨⟨ot, hexDecode dh⟩, ?_⟩
    unfold fromParts
    simp [hft, h40, hall]

/-- C5: core-identifier parsing succeeds exactly when the input splits on
`:` into the four fields `swh`, `1`, one of the five lowercase type tags,
and a digest of exactly 40 lowercase hex bytes; moreover, when the first
three fields are valid, the presence of a fifth field is reported as a
format error (the extra field is not ignored), and this check precedes the
digest validation. Uppercase bytes in the tag or in the digest make the
right-hand side false, hence parsing fail. -/
theorem swhid_from_str_success_iff (s : List Nat) :
    ((∃ v, Swhid.from_str s = .ok v) ↔
      ∃ tag dh, splitOnByte 58 s = [ascii "swh", ascii "1", tag, dh] ∧
        tag ∈ [ascii "cnt", ascii "dir", ascii "rev", ascii "rel", ascii "snp"] ∧
        dh.length = 40 ∧ dh.all isLowerHexByte = true) ∧
    (∀ tag dh x rest ot,
      splitOnByte 58 s = ascii "swh" :: ascii "1" :: tag :: dh :: x :: rest →
      ObjectType.from_tag tag = .ok ot →
      Swhid.from_str s = .error (.invalidFormat s)) := by
  constructor
  · rw [Swhid.from_str, fromParts_ok_shape s (splitOnByte 58 s)]
    constructor
    · rintro ⟨tag, dh, hp, hok, h40, hall⟩
      exact ⟨tag, dh, hp, (from_tag_ok_iff tag).1 hok, h40, hall⟩
    · rintro ⟨tag, dh, hp, hmem, h40, hall⟩
      exact ⟨tag, dh, hp, (from_tag_ok_iff tag).2 hmem, h40, hall⟩
  · intro tag dh x rest ot hp hft
    rw [Swhid.from_str, hp]
    unfold fromParts
    simp [hft]

/-- Witness for the fifth-field part of the C5 theorem, at the concrete
input `swh:1:cnt:<40 hex>:extra`. -/
theorem swhid_from_str_success_iff_witness :
    Swhid.from_str (ascii "swh:1:cnt:e69de29bb2d1d6434b8b29ae775ad8c2e48c5391:extra")
      = .error (.invalidFormat
          (ascii "swh:1:cnt:e69de29bb2d1d6434b8b29ae775ad8c2e48c5391:extra")) :=
  (swhid_from_str_success_iff
      (ascii "swh:1:cnt:e69de29bb2d1d6434b8b29ae775ad8c2e48c5391:extra")).2
    (ascii "cnt") (ascii "e69de29bb2d1d6434b8b29ae775ad8c2e48c5391") (ascii "extra")
    [] .content (by decide) (by rfl)


/-- Fuel-indexed helper for octal printing. -/
def toOctalAux : Nat → Nat → List Nat
  | 0, _ => []
  | fuel + 1, n =>
    if n < 8 then [48 + n]
    else toOctalAux fuel (n / 8) ++ [48 + n % 8]

/-- Minimal (no leading zero) octal digits of a natural number, as produced
by the Rust format specifier for octal without a width. -/
def toOctal (n : Nat) : List Nat :=
  toOctalAux (n + 1) n

/-- Left zero-padding of a digit string to a given width, as produced by a
zero-padded width format specifier. -/
def zeroPad (width : Nat) (digits : List Nat) : List Nat :=
  List.replicate (width - digits.length) 48 ++ digits

/-- Entry permissions (`permissions.rs`, `EntryPerms`): regular file with
executable bit, directory, symlink, or submodule revision reference. -/
inductive EntryPerms
  | file (executable : Bool)
  | directory
  | symlink
  | revisionRef
deriving DecidableEq, Repr

/-- Mode value of each permission variant
(`EntryPerms::to_swh_mode_u32`). -/
def EntryPerms.to_swh_mode_u32 : EntryPerms → Nat
  | .file false => 0o100644
  | .file true => 0o100755
  | .directory => 0o040000
  | .symlink => 0o120000
  | .revisionRef => 0o160000

/-- Permission lookup from a u32 tree mode (`EntryPerms::from_mode`): only
the five canonical mode values are accepted. -/
def EntryPerms.from_mode (mode : Nat) : Except SwhidError EntryPerms :=
  if mode = 0o100644 then .ok (.file false)
  else if mode = 0o100755 then .ok (.file true)
  else if mode = 0o040000 then .ok .directory
  else if mode = 0o120000 then .ok .symlink
  else if mode = 0o160000 then .ok .revisionRef
  else .error (.invalidFormat (ascii "Invalid entry mode: " ++ toOctal mode))

/-- Probe result for the executable bit (`permissions.rs`, `EntryExec`). -/
inductive EntryExec
  | known (executable : Bool)
  | unknown
deriving DecidableEq, Repr

/-- Policy for resolving an unknown executable bit (`PermissionPolicy`). -/
inductive PermissionPolicy
  | strict
  | bestEffort
deriving DecidableEq, Repr

/-- Error message emitted by `resolve_file_permissions` under the strict
policy, split around the interpolated path. -/
def cannotDetermineMsgPre : List Nat :=
  ascii "Cannot determine executable bit for "

/-- Tail of the strict-policy error message, after the interpolated path
(the Rust string continuation elides the line break and indentation). -/
def cannotDetermineMsgPost : List Nat :=
  ascii " on this platform. Options: use --permissions-source git-index, provide a permission manifest, or use --permissions-policy best-effort"

/-- Mapping of probe result and policy to canonical file permissions
(`permissions.rs`, `resolve_file_permissions`). -/
def resolve_file_permissions (exec : EntryExec) (policy : PermissionPolicy)
    (path : List Nat) : Except SwhidError EntryPerms :=
  match exec, policy with
  | .known executable, _ => .ok (.file executable)
  | .unknown, .strict =>
    .error (.invalidFormat (cannotDetermineMsgPre ++ path ++ cannotDetermineMsgPost))
  | .unknown, .bestEffort => .ok (.file false)

/-- C8: for every path and policy, a `known x` probe result resolves to
`file x` regardless of policy; an `unknown` probe result under the strict
policy is the only error case, and its message contains the path; an
`unknown` probe result under the best-effort policy resolves to a
non-executable file. -/
theorem resolve_file_permissions_cases (policy : PermissionPolicy) (path : List Nat) :
    (∀ x, resolve_file_permissions (.known x) policy path = .ok (.file x)) ∧
    (∃ pre post, resolve_file_permissions .unknown .strict path =
      .error (.invalidFormat (pre ++ path ++ post))) ∧
    resolve_file_permissions .unknown .bestEffort path = .ok (.file false) :=
  ⟨fun x => by cases policy <;> rfl,
   ⟨cannotDetermineMsgPre, cannotDetermineMsgPost, rfl⟩,
   rfl⟩

/-- C10: `from_mode` is a left inverse of `to_swh_mode_u32` on all five
permission variants, and `from_mode` succeeds exactly on the five
canonical mode values, so the variant-to-mode map is a bijection onto that
set. -/
theorem entry_perms_mode_bijection :
    (∀ p : EntryPerms, EntryPerms.from_mode p.to_swh_mode_u32 = .ok p) ∧
    (∀ m : Nat, (∃ p, EntryPerms.from_mode m = .ok p) ↔
      m ∈ [0o100644, 0o100755, 0o040000, 0o120000, 0o160000]) := by
  constructor
  · rintro (_ | _ | _ | _) <;> first | rfl | (rename_i b; cases b <;> rfl)
  · intro m
    unfold EntryPerms.from_mode
    repeat' split
    all_goals simp_all


/-- Newline folding done inside `HeaderWriter::push` (`utils.rs`): every
value byte is copied, and a space is inserted right after each embedded
newline byte. -/
def foldNl (value : List Nat) : List Nat :=
  value.flatMap fun b => if b = 10 then [10, 32] else [b]

/-- One header line as written by `HeaderWriter::push` (`utils.rs`): the
key, one space, the (newline-folded) value, one newline. -/
def headerLine (key value : List Nat) : List Nat :=
  key ++ 32 :: foldNl value ++ [10]

/-- The composite value written by `HeaderWriter::push_authorship`
(`utils.rs`): name, space, decimal timestamp, space, timestamp offset. -/
def authorship (name : List Nat) (timestamp : Int) (offset : List Nat) : List Nat :=
  name ++ 32 :: intToDecimal timestamp ++ 32 :: offset

/-- Finalization done by `HeaderWriter::build` (`utils.rs`): when a message
is present, one blank line then the raw message bytes. -/
def buildMessage (acc : List Nat) (message : Option (List Nat)) : List Nat :=
  match message with
  | some m => acc ++ 10 :: m
  | none => acc

/-- Target kind of a release (`release.rs`, `ReleaseTargetType`). -/
inductive ReleaseTargetType
  | revision
  | directory
  | release
  | content
deriving DecidableEq, Repr

/-- Manifest label of a release target kind (the `type` header value in
`rel_manifest`). -/
def targetTypeLabel : ReleaseTargetType → List Nat
  | .revision => ascii "commit"
  | .directory => ascii "tree"
  | .release => ascii "tag"
  | .content => ascii "blob"

/-- A release (`release.rs`, `Release`): target digest and kind, tag name,
optional author identity and timestamp and offset, ordered extra headers,
optional message. -/
structure Release where
  object : List Nat
  object_type : ReleaseTargetType
  name : List Nat
  author : Option (List Nat)
  author_timestamp : Option Int
  author_timestamp_offset : Option (List Nat)
  extra_headers : List (List Nat × List Nat)
  message : Option (List Nat)
deriving DecidableEq, Repr

/-- The release manifest (`release.rs`, `rel_manifest`): `object` (hex),
`type`, `tag` headers, a `tagger` header only when author, timestamp and
offset are all present, then the extra headers, then the optional
blank-line-and-message tail. -/
def rel_manifest (r : Release) : List Nat :=
  buildMessage
    (headerLine (ascii "object") (hexEncode r.object)
      ++ headerLine (ascii "type") (targetTypeLabel r.object_type)
      ++ headerLine (ascii "tag") r.name
      ++ (match r.author, r.author_timestamp, r.author_timestamp_offset with
          | some a, some t, some o => headerLine (ascii "tagger") (authorship a t o)
          | _, _, _ => [])
      ++ (r.extra_headers.flatMap fun kv => headerLine kv.1 kv.2))
    r.message

/-- The part of a release manifest before any tagger line: the `object`,
`type` and `tag` headers. -/
def relHead (r : Release) : List Nat :=
  headerLine (ascii "object") (hexEncode r.object)
    ++ headerLine (ascii "type") (targetTypeLabel r.object_type)
    ++ headerLine (ascii "tag") r.name

/-- The part of a release manifest after any tagger line: the extra headers
and the optional blank-line-and-message tail. -/
def relTail (r : Release) : List Nat :=
  (r.extra_headers.flatMap fun kv => headerLine kv.1 kv.2)
    ++ (match r.message with
        | some m => 10 :: m
        | none => [])

/-- C9: the release manifest carries a `tagger` line exactly when the
author, the timestamp and the timestamp offset are all present; under any
other combination of presence the manifest equals the all-absent variant
of the same release, with no tagger line. -/
theorem release_tagger_all_or_nothing (r : Release) :
    (∀ a t o, r.author = some a → r.author_timestamp = some t →
      r.author_timestamp_offset = some o →
      rel_manifest r = relHead r
        ++ headerLine (ascii "tagger") (authorship a t o) ++ relTail r) ∧
    (¬(r.author.isSome = true ∧ r.author_timestamp.isSome = true ∧
        r.author_timestamp_offset.isSome = true) →
      rel_manifest r = relHead r ++ relTail r ∧
      rel_manifest r = rel_manifest { r with author := none, author_timestamp := none, author_timestamp_offset := none }) := by
  constructor
  · intro a t o ha ht ho
    cases hm : r.message <;>
      simp [rel_manifest, relHead, relTail, buildMessage, ha, ht, ho, hm,
        List.append_assoc]
  · intro hno
    rcases ha : r.author with _ | a <;>
      rcases ht : r.author_timestamp with _ | t <;>
      rcases ho : r.author_timestamp_offset with _ | o <;>
      [skip; skip; skip; skip; skip; skip; skip;
       exact absurd ⟨by rw [ha]; rfl, by rw [ht]; rfl, by rw [ho]; rfl⟩ hno] <;>
      cases hm : r.message <;>
      simp [rel_manifest, relHead, relTail, buildMessage, ha, ht, ho, hm,
        List.append_assoc]

/-- Example release with a full tagger triple, from `tests/release.rs`. -/
def relExampleFull : Release where
  object := [0x0e, 0xfb, 0x37, 0xb2, 0x8c, 0x53, 0xc7, 0xe4, 0xfb, 0xd2,
    0x53, 0xbb, 0x04, 0xa4, 0xdf, 0x14, 0x00, 0x8f, 0x63, 0xfe]
  object_type := .directory
  name := ascii "v1.0"
  author := some (ascii "Test User <test@example.com>")
  author_timestamp := some 1763027354
  author_timestamp_offset := some (ascii "+0100")
  extra_headers := []
  message := some (ascii "Test tag")

/-- Example release with a partial tagger triple (author present, the
timestamp and offset absent). -/
def relExamplePartial : Release where
  object := [0x0e, 0xfb, 0x37, 0xb2, 0x8c, 0x53, 0xc7, 0xe4, 0xfb, 0xd2,
    0x53, 0xbb, 0x04, 0xa4, 0xdf, 0x14, 0x00, 0x8f, 0x63, 0xfe]
  object_type := .directory
  name := ascii "v1.0"
  author := some (ascii "Test User <test@example.com>")
  author_timestamp := none
  author_timestamp_offset := none
  extra_headers := []
  message := some (ascii "Test tag")

/-- Witness for C9: the full triple yields the tagger line, and the partial
triple yields the same manifest as the all-absent variant. -/
theorem release_tagger_all_or_nothing_witness :
    (rel_manifest relExampleFull = relHead relExampleFull
      ++ headerLine (ascii "tagger")
          (authorship (ascii "Test User <test@example.com>") 1763027354 (ascii "+0100"))
      ++ relTail relExampleFull) ∧
    rel_manifest relExamplePartial = rel_manifest { relExamplePartial with author := none, author_timestamp := none, author_timestamp_offset := none } :=
  ⟨(release_tagger_all_or_nothing relExampleFull).1 _ _ _ rfl rfl rfl,
   ((release_tagger_all_or_nothing relExamplePartial).2 (by decide)).2⟩


/-- A revision (`revision.rs`, `Revision`): tree digest, ordered parents,
author and committer triples, ordered extra headers, optional message. -/
structure Revision where
  directory : List Nat
  parents : List (List Nat)
  author : List Nat
  author_timestamp : Int
  author_timestamp_offset : List Nat
  committer : List Nat
  committer_timestamp : Int
  committer_timestamp_offset : List Nat
  extra_headers : List (List Nat × List Nat)
  message : Option (List Nat)
deriving DecidableEq, Repr

/-- The revision manifest (`revision.rs`, `rev_manifest`). The code hands
the raw 20 digest bytes of `directory` and of each parent to
`HeaderWriter::push` (the `[u8; 20]` value itself, with no hex encoding),
so the `tree` and `parent` header values are the raw digest bytes. -/
def rev_manifest (rev : Revision) : List Nat :=
  buildMessage
    (headerLine (ascii "tree") rev.directory
      ++ (rev.parents.flatMap fun p => headerLine (ascii "parent") p)
      ++ headerLine (ascii "author")
          (authorship rev.author rev.author_timestamp rev.author_timestamp_offset)
      ++ headerLine (ascii "committer")
          (authorship rev.committer rev.committer_timestamp rev.committer_timestamp_offset)
      ++ (rev.extra_headers.flatMap fun kv => headerLine kv.1 kv.2))
    rev.message

/-- The 20-byte tree digest used by the revision test vector in
`tests/revision.rs` (hex `0efb37b28c53c7e4fbd253bb04a4df14008f63fe`). -/
def revTreeDigest : List Nat :=
  [0x0e, 0xfb, 0x37, 0xb2, 0x8c, 0x53, 0xc7, 0xe4, 0xfb, 0xd2,
   0x53, 0xbb, 0x04, 0xa4, 0xdf, 0x14, 0x00, 0x8f, 0x63, 0xfe]

/-- The revision value of the test vector in `tests/revision.rs`. -/
def revExample : Revision where
  directory := revTreeDigest
  parents := []
  author := ascii "Test User <test@example.com>"
  author_timestamp := 1763027354
  author_timestamp_offset := ascii "+0100"
  committer := ascii "Test User <test@example.com>"
  committer_timestamp := 1763027354
  committer_timestamp_offset := ascii "+0100"
  extra_headers := []
  message := some (ascii "Test commit")

/-- C1, divergence witness: on the test vector of `tests/revision.rs` the
manifest produced by `rev_manifest` carries the raw 20 digest bytes after
`tree ` (first conjunct), and therefore differs from the manifest asserted
by that test, whose `tree` header value is the 40-character lowercase hex
encoding of the digest (second conjunct). -/
theorem revision_tree_header_raw_bytes_bug :
    rev_manifest revExample =
      ascii "tree " ++ revTreeDigest
        ++ ascii "\nauthor Test User <test@example.com> 1763027354 +0100\ncommitter Test User <test@example.com> 1763027354 +0100\n\nTest commit" ∧
    rev_manifest revExample ≠
      ascii "tree 0efb37b28c53c7e4fbd253bb04a4df14008f63fe\nauthor Test User <test@example.com> 1763027354 +0100\ncommitter Test User <test@example.com> 1763027354 +0100\n\nTest commit" :=
  ⟨by decide, by decide⟩


/-- Strict lexicographic byte-order on byte strings, as implemented by the
Rust `Ord` instance for slices (`a.cmp(&b)` used by the sorting calls): a
proper prefix sorts first, otherwise the first differing byte decides. -/
def bytesLt : List Nat → List Nat → Bool
  | [], [] => false
  | [], _ :: _ => true
  | _ :: _, [] => false
  | a :: as, b :: bs =>
    if a < b then true else if b < a then false else bytesLt as bs

theorem bytesLt_cons (a b : Nat) (as bs : List Nat) :
    bytesLt (a :: as) (b :: bs) =
      if a < b then true else if b < a then false else bytesLt as bs := rfl

/-- Reflexive byte-order: `x` sorts no later than `y`. -/
def bytesLe (x y : List Nat) : Bool := !(bytesLt y x)

theorem bytesLt_irrefl (x : List Nat) : bytesLt x x = false := by
  induction x with
  | nil => rfl
  | cons a as ih => simp [bytesLt_cons, ih]

theorem bytesLt_trans (x : List Nat) : ∀ y z, bytesLt x y = true →
    bytesLt y z = true → bytesLt x z = true := by
  induction x with
  | nil =>
    intro y z hxy hyz
    cases y with
    | nil => simp [bytesLt] at hxy
    | cons b bs =>
      cases z with
      | nil => simp [bytesLt] at hyz
      | cons c cs => simp [bytesLt]
  | cons a as ih =>
    intro y z hxy hyz
    cases y with
    | nil => simp [bytesLt] at hxy
    | cons b bs =>
      cases z with
      | nil => simp [bytesLt] at hyz
      | cons c cs =>
        rw [bytesLt_cons] at hxy hyz ⊢
        split_ifs at hxy hyz ⊢
        all_goals first
          | rfl
          | (exfalso; omega)
          | exact ih bs cs hxy hyz
          | simp at hxy
          | simp at hyz

theorem bytesLt_connex (x : List Nat) : ∀ y, bytesLt x y = false →
    bytesLt y x = false → x = y := by
  induction x with
  | nil =>
    intro y h1 h2
    cases y with
    | nil => rfl
    | cons b bs => simp [bytesLt] at h1
  | cons a as ih =>
    intro y h1 h2
    cases y with
    | nil => simp [bytesLt] at h2
    | cons b bs =>
      rw [bytesLt_cons] at h1 h2
      split_ifs at h1 h2
      all_goals first
        | (exfalso; omega)
        | simp at h1
        | simp at h2
        | (have hab : a = b := by omega
           rw [hab, ih bs h1 h2])

theorem bytesLe_total (x y : List Nat) : bytesLe x y = true ∨ bytesLe y x = true := by
  by_contra hcon
  push_neg at hcon
  have h1 : bytesLt y x = true := by
    have := hcon.1
    simp [bytesLe] at this
    exact this
  have h2 : bytesLt x y = true := by
    have := hcon.2
    simp [bytesLe] at this
    exact this
  have := bytesLt_trans x y x h2 h1
  rw [bytesLt_irrefl] at this
  exact absurd this (by simp)

theorem bytesLe_trans (x y z : List Nat) (hxy : bytesLe x y = true)
    (hyz : bytesLe y z = true) : bytesLe x z = true := by
  simp only [bytesLe, Bool.not_eq_eq_eq_not, Bool.not_true] at hxy hyz ⊢
  by_contra hzx
  have hzx2 : bytesLt z x = true := by
    cases h : bytesLt z x
    · exact absurd h hzx
    · rfl
  rcases hlt : bytesLt x y with hf | ht
  · have hxy2 : x = y := bytesLt_connex x y hlt hxy
    subst hxy2
    rcases hlt2 : bytesLt x z with hf2 | ht2
    · have : x = z := bytesLt_connex x z hlt2 hyz
      subst this
      rw [bytesLt_irrefl] at hzx2
      exact absurd hzx2 (by simp)
    · have := bytesLt_trans x z x hlt2 hzx2
      rw [bytesLt_irrefl] at this
      exact absurd this (by simp)
  · have h1 := bytesLt_trans z x y hzx2 hlt
    rw [h1] at hyz
    exact absurd hyz (by simp)

theorem bytesLe_antisymm (x y : List Nat) (hxy : bytesLe x y = true)
    (hyx : bytesLe y x = true) : x = y := by
  simp only [bytesLe, Bool.not_eq_eq_eq_not, Bool.not_true] at hxy hyx
  exact (bytesLt_connex y x hxy hyx).symm


/-- A directory entry of the filesystem walker (`directory.rs`, `Entry`):
raw name bytes, SWHID tree mode, 20-byte child digest. -/
structure Entry where
  name : List Nat
  mode : Nat
  id : List Nat
deriving DecidableEq, Repr

/-- Sort relation used by `dir_payload`: the code sorts children with
`sort_by` comparing the raw name bytes. The stable insertion sort models
the library sort; on the name comparison used here any comparison sort
yields the same output for distinct keys. -/
def entryNameLe (a b : Entry) : Prop := bytesLe a.name b.name = true

instance : DecidableRel entryNameLe := fun a b => by
  unfold entryNameLe
  infer_instance

/-- The directory payload (`directory.rs`, `dir_payload`): children are
sorted by raw name bytes, then each entry is rendered as the mode in octal
through the width-6 zero-padding format specifier, one space, the raw name
bytes, one NUL byte, and the raw digest bytes, with no separators. -/
def dir_payload (children : List Entry) : List Nat :=
  (List.insertionSort entryNameLe children).foldl
    (fun out e => out ++ zeroPad 6 (toOctal e.mode) ++ 32 :: e.name ++ 0 :: e.id) []

/-- C2, divergence witness: a directory entry (mode `0o040000`) is encoded
by `dir_payload` with the zero-padded six-digit octal string `040000`
(first conjunct), not with the minimal octal string `40000` that the claim
and the repository test `dir_with_subdir` require (second conjunct). -/
theorem directory_mode_zero_padded_bug :
    dir_payload [Entry.mk (ascii "b") 0o040000 (List.replicate 20 2)] =
      ascii "040000 b" ++ 0 :: List.replicate 20 2 ∧
    dir_payload [Entry.mk (ascii "b") 0o040000 (List.replicate 20 2)] ≠
      ascii "40000 b" ++ 0 :: List.replicate 20 2 :=
  ⟨by decide, by decide⟩

/-- C3, divergence witness: with a directory named `a` and a file named
`a.`, `dir_payload` sorts by plain byte order of the raw names, so the
directory record comes first (first conjunct); the sort key mandated by
the claim (name with `/` appended for directories) would place the file
record first, since `a.` sorts before `a/`, so the code output differs
from that order (second conjunct). -/
theorem directory_sort_plain_bytes_bug :
    dir_payload [Entry.mk (ascii "a.") 0o100644 (List.replicate 20 1),
        Entry.mk (ascii "a") 0o040000 (List.replicate 20 2)] =
      (ascii "040000 a" ++ 0 :: List.replicate 20 2)
        ++ (ascii "100644 a." ++ 0 :: List.replicate 20 1) ∧
    dir_payload [Entry.mk (ascii "a.") 0o100644 (List.replicate 20 1),
        Entry.mk (ascii "a") 0o040000 (List.replicate 20 2)] ≠
      (ascii "100644 a." ++ 0 :: List.replicate 20 1)
        ++ (ascii "040000 a" ++ 0 :: List.replicate 20 2) :=
  ⟨by decide, by decide⟩


/-- Big-endian byte rendering of a value on `k` bytes. -/
def beBytes : Nat → Nat → List Nat
  | 0, _ => []
  | k + 1, n => (n >>> (8 * k)) % 256 :: beBytes k n

/-- Left rotation of a 32-bit word. -/
def rotl (b x : Nat) : Nat :=
  ((x <<< b) % 4294967296) ||| (x >>> (32 - b))

/-- SHA-1 message padding: `0x80`, zero bytes up to 56 mod 64, then the
bit length on 8 big-endian bytes. -/
def sha1Pad (msg : List Nat) : List Nat :=
  msg ++ 128 :: List.replicate ((119 - msg.length % 64) % 64) 0
    ++ beBytes 8 (8 * msg.length)

/-- Grouping of a byte stream into 32-bit big-endian words. -/
def wordsOf : List Nat → List Nat
  | b0 :: b1 :: b2 :: b3 :: rest =>
    (((b0 * 256 + b1) * 256 + b2) * 256 + b3) :: wordsOf rest
  | _ => []

/-- SHA-1 message-schedule extension; the accumulator holds the words seen
so far in reverse order. -/
def extendWords : Nat → List Nat → List Nat
  | 0, acc => acc.reverse
  | k + 1, acc =>
    extendWords k
      (rotl 1 ((acc.getD 2 0) ^^^ (acc.getD 7 0) ^^^ (acc.getD 13 0) ^^^ (acc.getD 15 0))
        :: acc)

/-- SHA-1 round function selection. -/
def sha1F (i b c d : Nat) : Nat :=
  if i < 20 then (b &&& c) ||| ((b ^^^ 4294967295) &&& d)
  else if i < 40 then b ^^^ c ^^^ d
  else if i < 60 then (b &&& c) ||| (b &&& d) ||| (c &&& d)
  else b ^^^ c ^^^ d

/-- SHA-1 round constants. -/
def sha1K (i : Nat) : Nat :=
  if i < 20 then 1518500249
  else if i < 40 then 1859775393
  else if i < 60 then 2400959708
  else 3395469782

/-- One SHA-1 round on the five-word state. -/
def sha1Round (st : Nat × Nat × Nat × Nat × Nat) (iw : Nat × Nat) :
    Nat × Nat × Nat × Nat × Nat :=
  match st, iw with
  | (a, b, c, d, e), (i, w) =>
    ((rotl 5 a + sha1F i b c d + e + sha1K i + w) % 4294967296,
      a, rotl 30 b, c, d)

/-- SHA-1 compression of one 16-word block into the running state. -/
def sha1Compress (h : Nat × Nat × Nat × Nat × Nat) (block : List Nat) :
    Nat × Nat × Nat × Nat × Nat :=
  match h with
  | (h0, h1, h2, h3, h4) =>
    match (extendWords 64 block.reverse).enum.foldl sha1Round (h0, h1, h2, h3, h4) with
    | (a, b, c, d, e) =>
      ((h0 + a) % 4294967296, (h1 + b) % 4294967296, (h2 + c) % 4294967296,
        (h3 + d) % 4294967296, (h4 + e) % 4294967296)

/-- Iteration of the compression over the 16-word blocks of the padded
message. -/
def sha1Blocks (h : Nat × Nat × Nat × Nat × Nat) :
    List Nat → Nat × Nat × Nat × Nat × Nat
  | w0 :: w1 :: w2 :: w3 :: w4 :: w5 :: w6 :: w7 :: w8 :: w9 :: w10 :: w11 ::
      w12 :: w13 :: w14 :: w15 :: rest =>
    sha1Blocks (sha1Compress h [w0, w1, w2, w3, w4, w5, w6, w7, w8, w9, w10,
      w11, w12, w13, w14, w15]) rest
  | _ => h

/-- The SHA-1 digest of a byte string. This is the digest computed by the
`sha1collisiondetection` dependency used in `hash.rs`; that hardened
implementation produces the standard SHA-1 digest (it additionally detects
crafted collision blocks, which does not change the digest function). -/
def sha1 (msg : List Nat) : List Nat :=
  match sha1Blocks (1732584193, 4023233417, 2562383102, 271733878, 3285377520)
      (wordsOf (sha1Pad msg)) with
  | (h0, h1, h2, h3, h4) =>
    beBytes 4 h0 ++ beBytes 4 h1 ++ beBytes 4 h2 ++ beBytes 4 h3 ++ beBytes 4 h4

/-- The SWHID object header (`hash.rs`, `swhid_object_header`): type label,
one space, decimal payload length, one NUL byte. -/
def swhid_object_header (typ : List Nat) (len : Nat) : List Nat :=
  typ ++ 32 :: toDecimal len ++ [0]

/-- Keyed object hashing (`hash.rs`, `hash_swhid_object`): SHA-1 over the
header followed by the payload. -/
def hash_swhid_object (typ : List Nat) (payload : List Nat) : List Nat :=
  sha1 (swhid_object_header typ payload.length ++ payload)

/-- Content hashing (`hash.rs`, `hash_content`): the `blob` object hash. -/
def hash_content (data : List Nat) : List Nat :=
  sha1 (swhid_object_header (ascii "blob") data.length ++ data)


/-- Errors of snapshot construction (`SnapshotError`, declared in
`error.rs` and raised by `snapshot.rs`). -/
inductive SnapshotError
  | duplicateBranchName (name : List Nat)
  | invalidByteInName (byte : Nat) (name : List Nat)
deriving DecidableEq, Repr

/-- A branch target (`snapshot.rs`, `BranchTarget`): one of the five object
kinds carrying an optional 20-byte digest (absent = dangling), or an alias
carrying an optional branch name. -/
inductive BranchTarget
  | content (id : Option (List Nat))
  | directory (id : Option (List Nat))
  | revision (id : Option (List Nat))
  | release (id : Option (List Nat))
  | snapshot (id : Option (List Nat))
  | alias (name : Option (List Nat))
deriving DecidableEq, Repr

/-- The target payload bytes (`BranchTarget::target_id`): the digest or
alias name bytes, or the empty string when the target is dangling. -/
def BranchTarget.target_id : BranchTarget → List Nat
  | .content i => i.getD []
  | .directory i => i.getD []
  | .revision i => i.getD []
  | .release i => i.getD []
  | .snapshot i => i.getD []
  | .alias n => n.getD []

/-- The target-kind label written by the manifest loop in
`snp_manifest_unchecked`. -/
def BranchTarget.label : BranchTarget → List Nat
  | .content _ => ascii "content"
  | .directory _ => ascii "directory"
  | .revision _ => ascii "revision"
  | .release _ => ascii "release"
  | .snapshot _ => ascii "snapshot"
  | .alias _ => ascii "alias"

/-- A branch (`snapshot.rs`, `Branch`): raw name bytes plus target. -/
structure Branch where
  name : List Nat
  target : BranchTarget
deriving DecidableEq, Repr

/-- Sort relation of `sort_and_check_branches`: branches are compared by
raw name bytes. -/
def branchLe (a b : Branch) : Prop := bytesLe a.name b.name = true

instance : DecidableRel branchLe := fun a b => by
  unfold branchLe
  infer_instance

instance : IsTotal Branch branchLe :=
  ⟨fun a b => bytesLe_total a.name b.name⟩

instance : IsTrans Branch branchLe :=
  ⟨fun a b c => bytesLe_trans a.name b.name c.name⟩

/-- The sorting step of `sort_and_check_branches`
(`branches.sort_unstable_by` comparing names); the insertion sort models
the library sort, and on name-distinct inputs every comparison sort
returns the same list. -/
def sortBranches (branches : List Branch) : List Branch :=
  List.insertionSort branchLe branches

/-- Adjacent-duplicate detection (`utils.rs`, `check_unique`): returns the
second element of the first adjacent equal pair, if any. -/
def check_unique : List (List Nat) → Option (List Nat)
  | [] => none
  | [_] => none
  | x :: y :: rest => if x = y then some y else check_unique (y :: rest)

/-- Validation and sorting of a branch list (`snapshot.rs`,
`sort_and_check_branches`): sort by name, reject duplicate names, reject a
NUL byte in any name. -/
def sort_and_check_branches (branches : List Branch) :
    Except SnapshotError (List Branch) :=
  let sorted := sortBranches branches
  match check_unique (sorted.map Branch.name) with
  | some nm => .error (.duplicateBranchName nm)
  | none =>
    match sorted.find? (fun b => b.name.contains 0) with
    | some b => .error (.invalidByteInName 0 b.name)
    | none => .ok sorted

/-- A snapshot (`snapshot.rs`, `Snapshot`): the sorted, validated branch
list. -/
structure Snapshot where
  branches : List Branch
deriving DecidableEq, Repr

/-- Snapshot construction (`Snapshot::new`). -/
def Snapshot.new (branches : List Branch) : Except SnapshotError Snapshot :=
  (sort_and_check_branches branches).map Snapshot.mk

/-- The snapshot manifest over an already sorted and validated branch list
(`snapshot.rs`, `snp_manifest_unchecked`): per branch, the target-kind
label, a space, the raw name, a NUL byte, the decimal length of the target
payload, a colon, then the payload bytes. -/
def snp_manifest_unchecked (branches : List Branch) : List Nat :=
  branches.foldl
    (fun out b => out ++ b.target.label ++ 32 :: b.name ++ 0 ::
      (toDecimal b.target.target_id.length ++ 58 :: b.target.target_id)) []

/-- The public manifest entry point (`snapshot.rs`, `snp_manifest`). -/
def snp_manifest (branches : List Branch) : Except SnapshotError (List Nat) :=
  (sort_and_check_branches branches).map snp_manifest_unchecked

/-- The snapshot identifier (`Snapshot::swhid`):
`hash("snapshot", manifest)`. -/
def Snapshot.swhid (s : Snapshot) : Swhid :=
  ⟨.snapshot, hash_swhid_object (ascii "snapshot") (snp_manifest_unchecked s.branches)⟩

/-- The per-branch record of the snapshot manifest, as the specification
words it: target-kind label, one space, raw branch name, one NUL byte,
decimal ASCII length of the target payload, a colon, the payload bytes. -/
def branchRecord (b : Branch) : List Nat :=
  b.target.label ++ 32 :: b.name ++ 0 ::
    (toDecimal b.target.target_id.length ++ 58 :: b.target.target_id)

theorem foldl_append_eq_flatten {α : Type} (f : α → List Nat) (l : List α) :
    ∀ init : List Nat,
      l.foldl (fun out x => out ++ f x) init = init ++ (l.map f).flatten := by
  induction l with
  | nil => intro init; simp
  | cons x rest ih =>
    intro init
    simp only [List.foldl_cons, List.map_cons, List.flatten_cons, ih, List.append_assoc]

theorem sort_and_check_ok (bs l : List Branch)
    (h : sort_and_check_branches bs = .ok l) : l = sortBranches bs := by
  unfold sort_and_check_branches at h
  dsimp only at h
  split at h
  · exact absurd h (by simp)
  · split at h
    · exact absurd h (by simp)
    · simp only [Except.ok.injEq] at h
      exact h.symm


/-- C6: for every snapshot accepted by `Snapshot::new`, the stored branch
list is sorted by raw name and is a permutation of the input, the manifest
is the concatenation of one record per branch (target-kind label, space,
raw name, NUL, decimal payload length, colon, payload bytes, the payload
being empty for a dangling target), and the identifier digest is the
keyed hash of that manifest under the `snapshot` label. -/
theorem snapshot_manifest_encoding (bs : List Branch) (s : Snapshot)
    (h : Snapshot.new bs = .ok s) :
    List.Sorted branchLe s.branches ∧
    s.branches.Perm bs ∧
    snp_manifest_unchecked s.branches = (s.branches.map branchRecord).flatten ∧
    s.swhid = ⟨.snapshot,
      hash_swhid_object (ascii "snapshot") ((s.branches.map branchRecord).flatten)⟩ := by
  have hbr : s.branches = sortBranches bs := by
    cases hsc : sort_and_check_branches bs with
    | error e =>
      rw [Snapshot.new, hsc] at h
      exact absurd h (by simp [Except.map])
    | ok l =>
      rw [Snapshot.new, hsc] at h
      simp only [Except.map, Except.ok.injEq] at h
      rw [← h, sort_and_check_ok bs l hsc]
  have hman : snp_manifest_unchecked s.branches = (s.branches.map branchRecord).flatten := by
    have hfun : snp_manifest_unchecked s.branches =
        s.branches.foldl (fun out b => out ++ branchRecord b) [] := by
      unfold snp_manifest_unchecked
      congr 1
      funext out b
      simp [branchRecord, List.append_assoc]
    rw [hfun, foldl_append_eq_flatten, List.nil_append]
  refine ⟨?_, ?_, hman, ?_⟩
  · rw [hbr]
    exact List.sorted_insertionSort branchLe bs
  · rw [hbr]
    exact List.perm_insertionSort branchLe bs
  · rw [Snapshot.swhid, hman]

/-- Example branch list for the C6 witness: a revision branch and an alias
branch, given in unsorted order. -/
def snapBranches : List Branch :=
  [⟨ascii "refs/heads/main", .revision (some (List.replicate 20 3))⟩,
   ⟨ascii "HEAD", .alias (some (ascii "refs/heads/main"))⟩]

/-- The snapshot value produced from `snapBranches` (branches sorted by
name). -/
def snapExample : Snapshot :=
  ⟨[⟨ascii "HEAD", .alias (some (ascii "refs/heads/main"))⟩,
    ⟨ascii "refs/heads/main", .revision (some (List.replicate 20 3))⟩]⟩

/-- Witness for C6 at a concrete snapshot: construction succeeds with the
sorted branch list and the conclusion holds there. -/
theorem snapshot_manifest_encoding_witness :
    Snapshot.new snapBranches = .ok snapExample ∧
    (List.Sorted branchLe snapExample.branches ∧
      snapExample.branches.Perm snapBranches ∧
      snp_manifest_unchecked snapExample.branches
        = (snapExample.branches.map branchRecord).flatten ∧
      snapExample.swhid = ⟨.snapshot, hash_swhid_object (ascii "snapshot")
        ((snapExample.branches.map branchRecord).flatten)⟩) :=
  ⟨by decide, snapshot_manifest_encoding snapBranches snapExample (by decide)⟩

theorem check_unique_none (xs : List (List Nat)) (h : xs.Pairwise (· ≠ ·)) :
    check_unique xs = none := by
  induction xs with
  | nil => rfl
  | cons x rest ih =>
    cases rest with
    | nil => rfl
    | cons y rest2 =>
      simp only [check_unique]
      rw [if_neg ((List.pairwise_cons.1 h).1 y (by simp))]
      exact ih h.of_cons

/-- C7: constructing a snapshot from two permutations of the same branch
list with pairwise distinct names and no NUL byte in any name succeeds on
both, yields the same snapshot value, and hence the identical manifest
(and identical digest, the digest being a function of the manifest). -/
theorem snapshot_order_independence (l1 l2 : List Branch) (hperm : l1.Perm l2)
    (hnames : (l1.map Branch.name).Pairwise (· ≠ ·))
    (hnul : ∀ b ∈ l1, (0 : Nat) ∉ b.name) :
    ∃ s, Snapshot.new l1 = .ok s ∧ Snapshot.new l2 = .ok s ∧
      snp_manifest l1 = .ok (snp_manifest_unchecked s.branches) ∧
      snp_manifest l2 = .ok (snp_manifest_unchecked s.branches) := by
  have hR1 : l1.Pairwise (fun a b : Branch => a.name ≠ b.name) :=
    List.pairwise_map.1 hnames
  have hsymm : ∀ {x y : Branch}, x.name ≠ y.name → y.name ≠ x.name :=
    fun h => h.symm
  have hperm1 : (sortBranches l1).Perm l1 := List.perm_insertionSort branchLe l1
  have hperm2 : (sortBranches l2).Perm l2 := List.perm_insertionSort branchLe l2
  have hsorted1 : List.Sorted branchLe (sortBranches l1) :=
    List.sorted_insertionSort branchLe l1
  have hsorted2 : List.Sorted branchLe (sortBranches l2) :=
    List.sorted_insertionSort branchLe l2
  have hR1s : (sortBranches l1).Pairwise (fun a b : Branch => a.name ≠ b.name) :=
    hR1.perm hperm1.symm hsymm
  have hR2s : (sortBranches l2).Pairwise (fun a b : Branch => a.name ≠ b.name) :=
    hR1.perm (hperm.trans hperm2.symm) hsymm
  have hps : (sortBranches l1).Perm (sortBranches l2) :=
    hperm1.trans (hperm.trans hperm2.symm)
  haveI : IsAntisymm Branch (fun a b : Branch => branchLe a b ∧ a.name ≠ b.name) :=
    ⟨fun a b hab hba => absurd (bytesLe_antisymm _ _ hab.1 hba.1) hab.2⟩
  have heq : sortBranches l1 = sortBranches l2 :=
    List.eq_of_perm_of_sorted hps (hsorted1.and hR1s) (hsorted2.and hR2s)
  have hcu : check_unique ((sortBranches l1).map Branch.name) = none :=
    check_unique_none _ (List.pairwise_map.2 hR1s)
  have hf : (sortBranches l1).find? (fun b => b.name.contains 0) = none := by
    rw [List.find?_eq_none]
    intro b hb
    have hbl1 : b ∈ l1 := hperm1.subset hb
    have := hnul b hbl1
    simp_all
  have hok1 : sort_and_check_branches l1 = .ok (sortBranches l1) := by
    unfold sort_and_check_branches
    dsimp only
    rw [hcu, hf]
  have hok2 : sort_and_check_branches l2 = .ok (sortBranches l1) := by
    unfold sort_and_check_branches
    dsimp only
    rw [← heq, hcu, hf]
  refine ⟨⟨sortBranches l1⟩, ?_, ?_, ?_, ?_⟩
  · rw [Snapshot.new, hok1]
    rfl
  · rw [Snapshot.new, hok2]
    rfl
  · rw [snp_manifest, hok1]
    rfl
  · rw [snp_manifest, hok2]
    rfl

/-- A permutation of `snapBranches`. -/
def snapBranchesPerm : List Branch :=
  [⟨ascii "HEAD", .alias (some (ascii "refs/heads/main"))⟩,
   ⟨ascii "refs/heads/main", .revision (some (List.replicate 20 3))⟩]

/-- Witness for C7 at a concrete pair of permuted branch lists. -/
theorem snapshot_order_independence_witness :
    ∃ s, Snapshot.new snapBranches = .ok s ∧
      Snapshot.new snapBranchesPerm = .ok s ∧
      snp_manifest snapBranches = .ok (snp_manifest_unchecked s.branches) ∧
      snp_manifest snapBranchesPerm = .ok (snp_manifest_unchecked s.branches) :=
  snapshot_order_independence snapBranches snapBranchesPerm
    (by decide) (by decide) (by decide)


/-- A line-range qualifier (`qualifier.rs`, `LineRange`); `stop` models the
Rust field `end` (a reserved word here), inclusive, or absent for a single
point. -/
structure LineRange where
  start : Nat
  stop : Option Nat
deriving DecidableEq, Repr

/-- A byte-range qualifier (`qualifier.rs`, `ByteRange`). -/
structure ByteRange where
  start : Nat
  stop : Option Nat
deriving DecidableEq, Repr

/-- Display of a range (`impl Display for LineRange / ByteRange`):
`start-stop` or just `start`. -/
def rangeBytes (start : Nat) (stop : Option Nat) : List Nat :=
  toDecimal start ++ (match stop with
    | some e => 45 :: toDecimal e
    | none => [])

/-- Model of `str::parse::<u64>`: an optional leading `+`, then one or more
ASCII digits, rejecting the empty string and values at or above `2^64`. -/
def parseU64 (s : List Nat) : Option Nat :=
  let digits := if s.head? = some 43 then s.tail else s
  if digits = [] then none
  else if digits.all (fun b => 48 ≤ b && b ≤ 57) then
    if decValue digits < 18446744073709551616 then some (decValue digits) else none
  else none

/-- Range parsing (`qualifier.rs`, `parse_range`): split once on `-`; with
two parts both must parse as u64 and the end must not be below the start;
otherwise the whole value must parse as u64. -/
def parse_range (s : List Nat) : Except SwhidError (Nat × Option Nat) :=
  match splitOnceByte 45 s with
  | some (a, b) =>
    match parseU64 a with
    | none => .error (.invalidQualifierValue (ascii "range") s)
    | some start =>
      match parseU64 b with
      | none => .error (.invalidQualifierValue (ascii "range") s)
      | some e =>
        if e < start then .error (.invalidQualifierValue (ascii "range") s)
        else .ok (start, some e)
  | none =>
    match parseU64 s with
    | none => .error (.invalidQualifierValue (ascii "range") s)
    | some start => .ok (start, none)

/-- A qualified SWHID (`qualifier.rs`, `QualifiedSwhid`): the core
identifier plus optional qualifiers and the preserved unrecognized pairs. -/
structure QualifiedSwhid where
  core : Swhid
  origin : Option (List Nat)
  visit : Option Swhid
  anchor : Option Swhid
  path : Option (List Nat)
  lines : Option LineRange
  bytes : Option ByteRange
  others : List (List Nat × List Nat)
deriving DecidableEq, Repr

/-- Construction with no qualifiers (`QualifiedSwhid::new`). -/
def QualifiedSwhid.new (core : Swhid) : QualifiedSwhid :=
  ⟨core, none, none, none, none, none, none, []⟩

/-- One `key=value` chunk of the display form. -/
def itemBytes (k v : List Nat) : List Nat := k ++ 61 :: v

/-- Turning an optional qualifier into zero or one display chunks. -/
def optList {α : Type} : Option α → (α → List Nat) → List (List Nat)
  | some x, f => [f x]
  | none, _ => []

/-- The `key=value` chunks written by `impl Display for QualifiedSwhid`, in
its fixed canonical order: origin, visit, anchor, path, lines, bytes, then
the unrecognized pairs in original order. -/
def qualItems (q : QualifiedSwhid) : List (List Nat) :=
  optList q.origin (fun o => itemBytes (ascii "origin") o)
    ++ optList q.visit (fun w => itemBytes (ascii "visit") (Swhid.toString w))
    ++ optList q.anchor (fun w => itemBytes (ascii "anchor") (Swhid.toString w))
    ++ optList q.path (fun p => itemBytes (ascii "path") p)
    ++ optList q.lines (fun r => itemBytes (ascii "lines") (rangeBytes r.start r.stop))
    ++ optList q.bytes (fun r => itemBytes (ascii "bytes") (rangeBytes r.start r.stop))
    ++ q.others.map (fun kv => itemBytes kv.1 kv.2)

/-- Display of a qualified SWHID: the core identifier, then `;key=value`
for each present qualifier in canonical order. -/
def qualifiedToString (q : QualifiedSwhid) : List Nat :=
  Swhid.toString q.core ++ (qualItems q).flatMap (fun item => 59 :: item)

/-- Handling of one `;`-separated chunk by `impl FromStr for
QualifiedSwhid`: empty chunks are skipped, a chunk must contain `=` with a
nonempty key, known keys set their field (parsing the value where needed),
unknown keys are appended to the preserved list. -/
def applyItem (q : QualifiedSwhid) (item : List Nat) : Except SwhidError QualifiedSwhid :=
  if item = [] then .ok q
  else
    match splitOnceByte 61 item with
    | none => .error (.invalidFormat item)
    | some (k, v) =>
      if k = [] then .error (.invalidFormat item)
      else if k = ascii "origin" then .ok { q with origin := some v }
      else if k = ascii "visit" then
        match Swhid.from_str v with
        | .error e => .error e
        | .ok w => .ok { q with visit := some w }
      else if k = ascii "anchor" then
        match Swhid.from_str v with
        | .error e => .error e
        | .ok w => .ok { q with anchor := some w }
      else if k = ascii "path" then .ok { q with path := some v }
      else if k = ascii "lines" then
        match parse_range v with
        | .error e => .error e
        | .ok (s, e) => .ok { q with lines := some ⟨s, e⟩ }
      else if k = ascii "bytes" then
        match parse_range v with
        | .error e => .error e
        | .ok (s, e) => .ok { q with bytes := some ⟨s, e⟩ }
      else .ok { q with others := q.others ++ [(k, v)] }

/-- Sequential handling of the chunk list (the parser loop). -/
def applyItems (q : QualifiedSwhid) : List (List Nat) → Except SwhidError QualifiedSwhid
  | [] => .ok q
  | item :: rest =>
    match applyItem q item with
    | .error e => .error e
    | .ok q2 => applyItems q2 rest

/-- Parsing of a qualified SWHID (`impl FromStr for QualifiedSwhid`): split
once on `;`, parse the core part, then process the remaining `;`-separated
chunks. -/
def qualifiedFromStr (s : List Nat) : Except SwhidError QualifiedSwhid :=
  match splitOnceByte 59 s with
  | none =>
    match Swhid.from_str s with
    | .error e => .error e
    | .ok core => .ok (QualifiedSwhid.new core)
  | some (coreStr, qstr) =>
    match Swhid.from_str coreStr with
    | .error e => .error e
    | .ok core => applyItems (QualifiedSwhid.new core) (splitOnByte 59 qstr)


/-- Wellformedness of a `Swhid` value as maintained by the Rust type: the
digest is exactly 20 bytes. -/
def SwhidWF (v : Swhid) : Prop :=
  v.digest.length = 20 ∧ ∀ b ∈ v.digest, b < 256

/-- Wellformedness of a range as maintained by `u64` fields, together with
the order condition the parser enforces. -/
def RangeWF (start : Nat) (stop : Option Nat) : Prop :=
  start < 18446744073709551616 ∧
    ∀ e, stop = some e → e < 18446744073709551616 ∧ start ≤ e

/-- The six recognized qualifier keys. -/
def keyIsKnown (k : List Nat) : Prop :=
  k ∈ [ascii "origin", ascii "visit", ascii "anchor", ascii "path",
    ascii "lines", ascii "bytes"]

/-- Wellformedness of a `QualifiedSwhid` value for the round trip: digests
are 20 bytes, free-form strings contain no `;`, ranges are ordered u64
values, and preserved unknown pairs have nonempty keys without `;` or `=`
that do not collide with a recognized key. -/
def QualifiedWF (q : QualifiedSwhid) : Prop :=
  SwhidWF q.core ∧
  (∀ o, q.origin = some o → (59 : Nat) ∉ o) ∧
  (∀ w, q.visit = some w → SwhidWF w) ∧
  (∀ w, q.anchor = some w → SwhidWF w) ∧
  (∀ p, q.path = some p → (59 : Nat) ∉ p) ∧
  (∀ r, q.lines = some r → RangeWF r.start r.stop) ∧
  (∀ r, q.bytes = some r → RangeWF r.start r.stop) ∧
  (∀ kv ∈ q.others, kv.1 ≠ ([] : List Nat) ∧ (59 : Nat) ∉ kv.1 ∧
    (61 : Nat) ∉ kv.1 ∧ (59 : Nat) ∉ kv.2 ∧ ¬keyIsKnown kv.1)

theorem parseU64_toDecimal (n : Nat) (h : n < 18446744073709551616) :
    parseU64 (toDecimal n) = some n := by
  have hdig := toDecimal_mem_digit n
  have hne := toDecimal_ne_nil n
  have hhead : (toDecimal n).head? ≠ some 43 := by
    cases htd : toDecimal n with
    | nil => exact absurd htd hne
    | cons d ds =>
      have := hdig d (by rw [htd]; simp)
      simp only [List.head?]
      intro hc
      simp only [Option.some.injEq] at hc
      omega
  unfold parseU64
  rw [if_neg hhead]
  dsimp only
  rw [if_neg hne]
  rw [if_pos, if_pos (by rw [decValue_toDecimal]; exact h), decValue_toDecimal]
  rw [List.all_eq_true]
  intro b hb
  have := hdig b hb
  simp only [Bool.and_eq_true, decide_eq_true_eq]
  omega

theorem toDecimal_not_mem (n c : Nat) (hc : c < 48 ∨ 57 < c) : c ∉ toDecimal n := by
  intro hmem
  have := toDecimal_mem_digit n c hmem
  omega

theorem rangeBytes_no_byte (start : Nat) (stop : Option Nat) (c : Nat)
    (hc : (c < 48 ∨ 57 < c) ∧ c ≠ 45) : c ∉ rangeBytes start stop := by
  intro hmem
  unfold rangeBytes at hmem
  rcases stop with _ | e
  · simp only [List.append_nil] at hmem
    exact toDecimal_not_mem start c hc.1 hmem
  · simp only [List.mem_append, List.mem_cons] at hmem
    rcases hmem with hm | hm | hm
    · exact toDecimal_not_mem start c hc.1 hm
    · exact hc.2 hm
    · exact toDecimal_not_mem e c hc.1 hm

theorem parse_range_rangeBytes (start : Nat) (stop : Option Nat)
    (h : RangeWF start stop) :
    parse_range (rangeBytes start stop) = .ok (start, stop) := by
  rcases stop with _ | e
  · have hsp : splitOnceByte 45 (toDecimal start) = none :=
      splitOnceByte_of_not_mem 45 _ (toDecimal_not_mem start 45 (by omega))
    unfold parse_range
    rw [show rangeBytes start none = toDecimal start by simp [rangeBytes]]
    rw [hsp]
    dsimp only
    rw [parseU64_toDecimal start h.1]
  · have hr := h.2 e rfl
    have hrb : rangeBytes start (some e) = toDecimal start ++ 45 :: toDecimal e := by
      simp [rangeBytes]
    have hsp : splitOnceByte 45 (toDecimal start ++ 45 :: toDecimal e)
        = some (toDecimal start, toDecimal e) :=
      splitOnceByte_append_sep 45 _ _ (toDecimal_not_mem start 45 (by omega))
    unfold parse_range
    rw [hrb, hsp]
    dsimp only
    rw [parseU64_toDecimal start h.1]
    dsimp only
    rw [parseU64_toDecimal e hr.1]
    dsimp only
    rw [if_neg (by omega)]


theorem applyItem_origin (acc : QualifiedSwhid) (o : List Nat) :
    applyItem acc (itemBytes (ascii "origin") o) = .ok { acc with origin := some o } := by
  have hsplit : splitOnceByte 61 (ascii "origin" ++ 61 :: o) = some (ascii "origin", o) :=
    splitOnceByte_append_sep 61 (ascii "origin") o (by decide)
  simp only [applyItem, itemBytes]
  rw [if_neg (by simp : ¬(ascii "origin" ++ 61 :: o = [])), hsplit]
  dsimp only
  rw [if_neg (by decide : ¬(ascii "origin" = ([] : List Nat))), if_pos rfl]

theorem applyItem_visit (acc : QualifiedSwhid) (w : Swhid) (hw : SwhidWF w) :
    applyItem acc (itemBytes (ascii "visit") (Swhid.toString w))
      = .ok { acc with visit := some w } := by
  have hsplit : splitOnceByte 61 (ascii "visit" ++ 61 :: Swhid.toString w)
      = some (ascii "visit", Swhid.toString w) :=
    splitOnceByte_append_sep 61 (ascii "visit") _ (by decide)
  simp only [applyItem, itemBytes]
  rw [if_neg (by simp : ¬(ascii "visit" ++ 61 :: Swhid.toString w = [])), hsplit]
  dsimp only
  rw [if_neg (by decide : ¬(ascii "visit" = ([] : List Nat))),
    if_neg (by decide : ¬(ascii "visit" = ascii "origin")), if_pos rfl,
    from_str_toString w hw.1 hw.2]

theorem applyItem_anchor (acc : QualifiedSwhid) (w : Swhid) (hw : SwhidWF w) :
    applyItem acc (itemBytes (ascii "anchor") (Swhid.toString w))
      = .ok { acc with anchor := some w } := by
  have hsplit : splitOnceByte 61 (ascii "anchor" ++ 61 :: Swhid.toString w)
      = some (ascii "anchor", Swhid.toString w) :=
    splitOnceByte_append_sep 61 (ascii "anchor") _ (by decide)
  simp only [applyItem, itemBytes]
  rw [if_neg (by simp : ¬(ascii "anchor" ++ 61 :: Swhid.toString w = [])), hsplit]
  dsimp only
  rw [if_neg (by decide : ¬(ascii "anchor" = ([] : List Nat))),
    if_neg (by decide : ¬(ascii "anchor" = ascii "origin")),
    if_neg (by decide : ¬(ascii "anchor" = ascii "visit")), if_pos rfl,
    from_str_toString w hw.1 hw.2]

theorem applyItem_path (acc : QualifiedSwhid) (p : List Nat) :
    applyItem acc (itemBytes (ascii "path") p) = .ok { acc with path := some p } := by
  have hsplit : splitOnceByte 61 (ascii "path" ++ 61 :: p) = some (ascii "path", p) :=
    splitOnceByte_append_sep 61 (ascii "path") p (by decide)
  simp only [applyItem, itemBytes]
  rw [if_neg (by simp : ¬(ascii "path" ++ 61 :: p = [])), hsplit]
  dsimp only
  rw [if_neg (by decide : ¬(ascii "path" = ([] : List Nat))),
    if_neg (by decide : ¬(ascii "path" = ascii "origin")),
    if_neg (by decide : ¬(ascii "path" = ascii "visit")),
    if_neg (by decide : ¬(ascii "path" = ascii "anchor")), if_pos rfl]

theorem applyItem_lines (acc : QualifiedSwhid) (r : LineRange) (hr : RangeWF r.start r.stop) :
    applyItem acc (itemBytes (ascii "lines") (rangeBytes r.start r.stop))
      = .ok { acc with lines := some r } := by
  have hsplit : splitOnceByte 61 (ascii "lines" ++ 61 :: rangeBytes r.start r.stop)
      = some (ascii "lines", rangeBytes r.start r.stop) :=
    splitOnceByte_append_sep 61 (ascii "lines") _ (by decide)
  simp only [applyItem, itemBytes]
  rw [if_neg (by simp : ¬(ascii "lines" ++ 61 :: rangeBytes r.start r.stop = [])), hsplit]
  dsimp only
  rw [if_neg (by decide : ¬(ascii "lines" = ([] : List Nat))),
    if_neg (by decide : ¬(ascii "lines" = ascii "origin")),
    if_neg (by decide : ¬(ascii "lines" = ascii "visit")),
    if_neg (by decide : ¬(ascii "lines" = ascii "anchor")),
    if_neg (by decide : ¬(ascii "lines" = ascii "path")), if_pos rfl,
    parse_range_rangeBytes r.start r.stop hr]

theorem applyItem_bytes (acc : QualifiedSwhid) (r : ByteRange) (hr : RangeWF r.start r.stop) :
    applyItem acc (itemBytes (ascii "bytes") (rangeBytes r.start r.stop))
      = .ok { acc with bytes := some r } := by
  have hsplit : splitOnceByte 61 (ascii "bytes" ++ 61 :: rangeBytes r.start r.stop)
      = some (ascii "bytes", rangeBytes r.start r.stop) :=
    splitOnceByte_append_sep 61 (ascii "bytes") _ (by decide)
  simp only [applyItem, itemBytes]
  rw [if_neg (by simp : ¬(ascii "bytes" ++ 61 :: rangeBytes r.start r.stop = [])), hsplit]
  dsimp only
  rw [if_neg (by decide : ¬(ascii "bytes" = ([] : List Nat))),
    if_neg (by decide : ¬(ascii "bytes" = ascii "origin")),
    if_neg (by decide : ¬(ascii "bytes" = ascii "visit")),
    if_neg (by decide : ¬(ascii "bytes" = ascii "anchor")),
    if_neg (by decide : ¬(ascii "bytes" = ascii "path")),
    if_neg (by decide : ¬(ascii "bytes" = ascii "lines")), if_pos rfl,
    parse_range_rangeBytes r.start r.stop hr]

theorem applyItem_unknown (acc : QualifiedSwhid) (k v : List Nat) (hk : k ≠ [])
    (hkeq : (61 : Nat) ∉ k) (hkn : ¬keyIsKnown k) :
    applyItem acc (itemBytes k v) = .ok { acc with others := acc.others ++ [(k, v)] } := by
  have hsplit : splitOnceByte 61 (k ++ 61 :: v) = some (k, v) :=
    splitOnceByte_append_sep 61 k v hkeq
  have hkn2 : k ≠ ascii "origin" ∧ k ≠ ascii "visit" ∧ k ≠ ascii "anchor" ∧
      k ≠ ascii "path" ∧ k ≠ ascii "lines" ∧ k ≠ ascii "bytes" := by
    unfold keyIsKnown at hkn
    simp only [List.mem_cons, List.not_mem_nil, or_false, not_or] at hkn
    exact hkn
  simp only [applyItem, itemBytes]
  rw [if_neg (by simp [hk] : ¬(k ++ 61 :: v = [])), hsplit]
  dsimp only
  rw [if_neg hk, if_neg hkn2.1, if_neg hkn2.2.1, if_neg hkn2.2.2.1,
    if_neg hkn2.2.2.2.1, if_neg hkn2.2.2.2.2.1, if_neg hkn2.2.2.2.2.2]

theorem applyItems_append (acc : QualifiedSwhid) (xs ys : List (List Nat)) :
    applyItems acc (xs ++ ys) =
      match applyItems acc xs with
      | .error e => .error e
      | .ok q2 => applyItems q2 ys := by
  induction xs generalizing acc with
  | nil => simp [applyItems]
  | cons x rest ih =>
    simp only [List.cons_append, applyItems]
    cases hax : applyItem acc x with
    | error e => rfl
    | ok q2 => exact ih q2

theorem applyItems_unknowns (others : List (List Nat × List Nat))
    (h : ∀ kv ∈ others, kv.1 ≠ ([] : List Nat) ∧ (61 : Nat) ∉ kv.1 ∧ ¬keyIsKnown kv.1) :
    ∀ acc, applyItems acc (others.map fun kv => itemBytes kv.1 kv.2)
      = .ok { acc with others := acc.others ++ others } := by
  induction others with
  | nil =>
    intro acc
    simp [applyItems]
  | cons kv rest ih =>
    intro acc
    have hkv := h kv (by simp)
    simp only [List.map_cons, applyItems]
    rw [applyItem_unknown acc kv.1 kv.2 hkv.1 hkv.2.1 hkv.2.2]
    dsimp only
    rw [ih (fun x hx => h x (by simp [hx])) _]
    simp [List.append_assoc]


theorem toString_no_semi (v : Swhid) (hb : ∀ b ∈ v.digest, b < 256) :
    (59 : Nat) ∉ Swhid.toString v := by
  intro hmem
  unfold Swhid.toString at hmem
  simp only [List.mem_append] at hmem
  rcases hmem with ((((h | h) | h) | h) | h) | h
  · exact absurd h (by decide)
  · exact absurd h (by decide)
  · exact absurd h (by decide)
  · revert h
    cases v.objectType <;> decide
  · exact absurd h (by decide)
  · have := hexEncode_mem_lower v.digest hb 59 h
    simp [isLowerHexByte] at this

theorem mem_optList {α : Type} {x? : Option α} {f : α → List Nat} {it : List Nat}
    (h : it ∈ optList x? f) : ∃ x, x? = some x ∧ it = f x := by
  cases x? with
  | none => simp [optList] at h
  | some x =>
    simp [optList] at h
    exact ⟨x, rfl, h⟩

theorem itemBytes_no_semi {k v : List Nat} (hk : (59 : Nat) ∉ k)
    (hv : (59 : Nat) ∉ v) : (59 : Nat) ∉ itemBytes k v := by
  intro hm
  unfold itemBytes at hm
  simp only [List.mem_append, List.mem_cons] at hm
  rcases hm with hm | hm | hm
  · exact hk hm
  · omega
  · exact hv hm

theorem qualItems_no_semi (q : QualifiedSwhid) (hwf : QualifiedWF q) :
    ∀ it ∈ qualItems q, (59 : Nat) ∉ it := by
  obtain ⟨hcore, ho, hv, ha, hp, hl, hb2, hoth⟩ := hwf
  intro it hit
  unfold qualItems at hit
  simp only [List.mem_append] at hit
  rcases hit with (((((h | h) | h) | h) | h) | h) | h
  · obtain ⟨o, hoeq, rfl⟩ := mem_optList h
    exact itemBytes_no_semi (by decide) (ho o hoeq)
  · obtain ⟨w, hweq, rfl⟩ := mem_optList h
    exact itemBytes_no_semi (by decide) (toString_no_semi w (hv w hweq).2)
  · obtain ⟨w, hweq, rfl⟩ := mem_optList h
    exact itemBytes_no_semi (by decide) (toString_no_semi w (ha w hweq).2)
  · obtain ⟨p, hpeq, rfl⟩ := mem_optList h
    exact itemBytes_no_semi (by decide) (hp p hpeq)
  · obtain ⟨r, hreq, rfl⟩ := mem_optList h
    exact itemBytes_no_semi (by decide)
      (rangeBytes_no_byte r.start r.stop 59 ⟨by omega, by omega⟩)
  · obtain ⟨r, hreq, rfl⟩ := mem_optList h
    exact itemBytes_no_semi (by decide)
      (rangeBytes_no_byte r.start r.stop 59 ⟨by omega, by omega⟩)
  · simp only [List.mem_map] at h
    obtain ⟨kv, hkv, rfl⟩ := h
    exact itemBytes_no_semi (hoth kv hkv).2.1 (hoth kv hkv).2.2.2.1

theorem splitOnByte_join (is : List (List Nat)) : ∀ i : List Nat, (59 : Nat) ∉ i →
    (∀ it ∈ is, (59 : Nat) ∉ it) →
    splitOnByte 59 (i ++ is.flatMap (fun it => 59 :: it)) = i :: is := by
  induction is with
  | nil =>
    intro i hi _
    simp [splitOnByte_of_not_mem 59 i hi]
  | cons j js ih =>
    intro i hi his
    have he : i ++ (j :: js).flatMap (fun it => 59 :: it)
        = i ++ 59 :: (j ++ js.flatMap (fun it => 59 :: it)) := by simp
    rw [he, splitOnByte_append_sep 59 _ _ hi,
      ih j (his j (by simp)) (fun it hit => his it (by simp [hit]))]

theorem optList_eq_nil {α : Type} {x? : Option α} {f : α → List Nat} :
    optList x? f = [] ↔ x? = none := by
  cases x? <;> simp [optList]

theorem qualItems_eq_nil (q : QualifiedSwhid) (h : qualItems q = []) :
    QualifiedSwhid.new q.core = q := by
  unfold qualItems at h
  simp only [List.append_eq_nil, optList_eq_nil, List.map_eq_nil_iff] at h
  obtain ⟨core, origin, visit, anchor, path, lines, bytesq, others⟩ := q
  simp only at h
  obtain ⟨⟨⟨⟨⟨⟨h1, h2⟩, h3⟩, h4⟩, h5⟩, h6⟩, h7⟩ := h
  subst h1 h2 h3 h4 h5 h6 h7
  rfl

theorem applyItems_qualItems (q : QualifiedSwhid) (hwf : QualifiedWF q) :
    applyItems (QualifiedSwhid.new q.core) (qualItems q) = .ok q := by
  obtain ⟨core, origin, visit, anchor, path, lines, bytesq, others⟩ := q
  obtain ⟨hcore, ho, hv, ha, hp, hl, hb2, hoth⟩ := hwf
  simp only at ho hv ha hp hl hb2 hoth
  have hothseg := applyItems_unknowns others
    (fun kv hkv => ⟨(hoth kv hkv).1, (hoth kv hkv).2.2.1, (hoth kv hkv).2.2.2.2⟩)
  rcases origin with _ | o <;> rcases visit with _ | w1 <;> rcases anchor with _ | w2 <;>
    rcases path with _ | p <;> rcases lines with _ | lr <;> rcases bytesq with _ | br <;>
    simp_all [qualItems, optList, QualifiedSwhid.new, applyItems, applyItem_origin,
      applyItem_visit, applyItem_anchor, applyItem_path, applyItem_lines,
      applyItem_bytes, hothseg]


/-- C4 (amended): parsing is a left inverse of formatting on identifier
values. For every wellformed core identifier value the core round trip
holds, and for every wellformed qualified identifier value parsing its
display recovers the value exactly; consequently `parse(s).to_string()`
returns `s` exactly for strings in the canonical serialization order,
while a valid input whose qualifiers are listed in another order parses
successfully but re-serializes in canonical order (see the
counterexample). -/
theorem qualified_parse_format_roundtrip :
    (∀ v : Swhid, SwhidWF v → Swhid.from_str (Swhid.toString v) = .ok v) ∧
    (∀ q : QualifiedSwhid, QualifiedWF q →
      qualifiedFromStr (qualifiedToString q) = .ok q) := by
  refine ⟨fun v hv => from_str_toString v hv.1 hv.2, fun q hwf => ?_⟩
  have hnos : (59 : Nat) ∉ Swhid.toString q.core := toString_no_semi q.core hwf.1.2
  cases hqi : qualItems q with
  | nil =>
    have he : qualifiedToString q = Swhid.toString q.core := by
      unfold qualifiedToString
      rw [hqi]
      simp
    rw [he]
    unfold qualifiedFromStr
    rw [splitOnceByte_of_not_mem 59 _ hnos]
    dsimp only
    rw [from_str_toString q.core hwf.1.1 hwf.1.2]
    dsimp only
    rw [qualItems_eq_nil q hqi]
  | cons i is =>
    have hitems : ∀ it ∈ qualItems q, (59 : Nat) ∉ it := qualItems_no_semi q hwf
    have he : qualifiedToString q
        = Swhid.toString q.core ++ 59 :: (i ++ is.flatMap (fun it => 59 :: it)) := by
      unfold qualifiedToString
      rw [hqi]
      simp
    rw [he]
    unfold qualifiedFromStr
    rw [splitOnceByte_append_sep 59 _ _ hnos]
    dsimp only
    rw [from_str_toString q.core hwf.1.1 hwf.1.2]
    dsimp only
    rw [splitOnByte_join is i (hitems i (by rw [hqi]; simp))
      (fun it hit => hitems it (by rw [hqi]; simp [hit])), ← hqi]
    exact applyItems_qualItems q hwf

/-- The non-canonical but grammar-valid qualified string used to refute the
claim as stated: qualifiers given in the order `path`, `origin`. -/
def nonCanonicalInput : List Nat :=
  ascii "swh:1:cnt:e69de29bb2d1d6434b8b29ae775ad8c2e48c5391;path=P;origin=U"

/-- The string the parser-and-formatter pair actually returns for
`nonCanonicalInput`: the same qualifiers in canonical order. -/
def canonicalOutput : List Nat :=
  ascii "swh:1:cnt:e69de29bb2d1d6434b8b29ae775ad8c2e48c5391;origin=U;path=P"

/-- C4, counterexample: `nonCanonicalInput` is accepted by the qualified
parser, but re-serializing returns the canonical-order string, which
differs from the input; so parse-then-format is not the identity on every
valid qualified identifier string. -/
theorem qualified_roundtrip_counterexample :
    (qualifiedFromStr nonCanonicalInput).map qualifiedToString
      = .ok canonicalOutput ∧ canonicalOutput ≠ nonCanonicalInput :=
  ⟨by decide, by decide⟩

/-- Concrete core identifier for the C4 witness. -/
def qexCore : Swhid := ⟨.content, List.replicate 20 171⟩

/-- Concrete qualified identifier for the C4 witness: an origin, a line
range and one unknown qualifier. -/
def qex : QualifiedSwhid :=
  ⟨qexCore, some (ascii "https://example.org/repo.git"), none, none,
    some (ascii "/src/lib.rs"), some ⟨9, some 15⟩, none,
    [(ascii "zz", ascii "1")]⟩

theorem qex_wf : QualifiedWF qex := by
  refine ⟨⟨by decide, by decide⟩, ?_, ?_, ?_, ?_, ?_, ?_, ?_⟩
  · intro o hoeq
    cases hoeq
    decide
  · intro w hw
    exact Option.noConfusion hw
  · intro w hw
    exact Option.noConfusion hw
  · intro p hpeq
    cases hpeq
    decide
  · intro r hreq
    cases hreq
    exact ⟨by decide, fun e he => by cases he; exact ⟨by decide, by decide⟩⟩
  · intro r hreq
    exact Option.noConfusion hreq
  · intro kv hkv
    have : kv = (ascii "zz", ascii "1") := by
      simpa [qex] using hkv
    rw [this]
    refine ⟨by decide, by decide, by decide, by decide, ?_⟩
    unfold keyIsKnown
    decide

/-- Witness for C4 at concrete values: both round trips hold. -/
theorem qualified_parse_format_roundtrip_witness :
    Swhid.from_str (Swhid.toString qexCore) = .ok qexCore ∧
    qualifiedFromStr (qualifiedToString qex) = .ok qex :=
  ⟨qualified_parse_format_roundtrip.1 qexCore ⟨by decide, by decide⟩,
   qualified_parse_format_roundtrip.2 qex qex_wf⟩

